import Mathlib

/-!
# Enumerating iterator (`src/enumeration.cxx`)

A shallow embedding of `mine::enumerating_iterator<I, S>` and of the two
`mine::enumerate` overloads, together with the part of the C++ standard
library they rest on (`std::ranges::subrange`, `std::vector` iterators and
`std::reverse_iterator`).

* `std::size_t` is a 64-bit unsigned word: the index is a `Nat` and every
  arithmetic step on it is reduced modulo `2 ^ 64`.
* An operation whose C++ behaviour is undefined (dereferencing outside the
  sequence, dereferencing the sentinel) returns `none`.
-/

namespace mine

/-! ## Standard-library substrate -/

/-- Number of values of `std::size_t` (64-bit unsigned). -/
def SIZE_MOD : Nat := 2 ^ 64

/-- What `enumerating_iterator` uses of its wrapped iterator type `I`:
`++i`, `--i` (bidirectional iterators) and `*i`.  `read` is `none` where
dereferencing is undefined. -/
class Iterator (I : Type) (α : outParam Type) where
  next : I → I
  prev : I → I
  read : I → Option α

/-- The comparison `i == s` of an iterator with its sentinel
(`std::sentinel_for<S, I>`). -/
class SentinelFor (S : Type) (I : Type) where
  reached : I → S → Bool

/-- An iterator type is a sentinel for itself through its own `==`. -/
instance instSentinelSelf (I : Type) [BEq I] : SentinelFor I I where
  reached i s := i == s

/-- A `std::vector<T>`: which vector object it is (`id`, used by no
operation), the address of its storage (`data()`, counted in elements; an
empty vector may hold the null address `0`), its elements, and the fact that
its size fits `std::size_t`. -/
structure Vec (α : Type) where
  id : Nat
  data : Nat
  elems : List α
  size_lt : elems.length < SIZE_MOD

/-- A `std::vector<T>::const_iterator`: a pointer into the storage of one
vector, held as the vector and the element offset from `data()`. -/
structure VecIter (α : Type) where
  vec : Vec α
  off : Int

/-- Iterators compare as the pointers they are: by address, the storage
address plus the offset.  Which vector the pointer came from plays no
part. -/
instance instBEqVecIter (α : Type) : BEq (VecIter α) where
  beq a b := decide ((a.vec.data : Int) + a.off = (b.vec.data : Int) + b.off)

/-- Pointer-like stepping and dereferencing of a vector iterator. -/
instance instIteratorVecIter (α : Type) : Iterator (VecIter α) α where
  next i := { i with off := i.off + 1 }
  prev i := { i with off := i.off - 1 }
  read i := if 0 ≤ i.off then i.vec.elems[i.off.toNat]? else none

/-- The member `begin()` of `std::vector`. -/
def Vec.begin {α : Type} (v : Vec α) : VecIter α := ⟨v, 0⟩

/-- The member `end()` of `std::vector`. -/
def Vec.end_ {α : Type} (v : Vec α) : VecIter α := ⟨v, (v.elems.length : Int)⟩

/-- A `std::reverse_iterator<I>`: it holds the base iterator `current`. -/
structure ReverseIter (I : Type) where
  current : I

/-- Equality of reverse iterators is equality of their bases. -/
instance instBEqReverseIter (I : Type) [BEq I] : BEq (ReverseIter I) where
  beq a b := a.current == b.current

/-- Stepping a reverse iterator moves the base the other way; dereferencing
reads the element before the base (`*std::prev(current)`). -/
instance instIteratorReverseIter (I α : Type) [Iterator I α] :
    Iterator (ReverseIter I) α where
  next r := ⟨Iterator.prev r.current⟩
  prev r := ⟨Iterator.next r.current⟩
  read r := Iterator.read (Iterator.prev r.current)

/-- The member `rbegin()` of `std::vector`. -/
def Vec.rbegin {α : Type} (v : Vec α) : ReverseIter (VecIter α) := ⟨v.end_⟩

/-- The member `rend()` of `std::vector`. -/
def Vec.rend {α : Type} (v : Vec α) : ReverseIter (VecIter α) := ⟨v.begin⟩

/-- A `std::ranges::range`: something with `begin(r)` and `end(r)`. -/
class Range (R : Type) (I : outParam Type) (S : outParam Type) where
  begin : R → I
  end_ : R → S

/-- A `std::vector` is a range through its own `begin()` and `end()`. -/
instance instRangeVec (α : Type) : Range (Vec α) (VecIter α) (VecIter α) where
  begin v := v.begin
  end_ v := v.end_

/-- A `std::ranges::subrange<I, S>`: the stored pair `begin_`, `end_`. -/
structure Subrange (I : Type) (S : Type) where
  begin_ : I
  end_ : S

/-- The call `std::ranges::advance(i, n, bound)` for `n ≥ 0`: increment `i`
while it differs from `bound`, at most `n` times.  (Where the sentinel can
measure the distance, the standard has the call jump to `bound` when
`bound - i ≤ n` and add `n` otherwise: the same position whenever `bound` is
reachable from `i`, which the call requires.) -/
def advanceBounded {I S α : Type} [Iterator I α] [SentinelFor S I] :
    Nat → I → S → I
  | 0, i, _ => i
  | n + 1, i, bound =>
    if SentinelFor.reached i bound then i
    else advanceBounded n (Iterator.next i) bound

/-- The member `subrange::advance(n)`: for `n < 0` (bidirectional iterators)
`begin_` is decremented `-n` times; otherwise `begin_` is advanced by `n`
bounded by `end_`. -/
def Subrange.advance {I S α : Type} [Iterator I α] [SentinelFor S I]
    (r : Subrange I S) (n : Int) : Subrange I S :=
  if n < 0 then { r with begin_ := Nat.iterate Iterator.prev n.natAbs r.begin_ }
  else { r with begin_ := advanceBounded n.toNat r.begin_ r.end_ }

/-! ## `mine::enumerating_iterator` -/

/-- The struct `enumerating_iterator<I, S>`: `idx` and the optional
`range`.  An absent `range` is the end sentinel. -/
structure enumerating_iterator (I : Type) (S : Type) where
  idx : Nat
  range : Option (Subrange I S)

namespace enumerating_iterator

variable {I S α : Type}

/-- The defaulted constructor `enumerating_iterator()`: the end sentinel. -/
def sentinel : enumerating_iterator I S := ⟨0, none⟩

/-- The constructor `enumerating_iterator(I begin, S end)`. -/
def mk_bound (b : I) (e : S) : enumerating_iterator I S := ⟨0, some ⟨b, e⟩⟩

/-- The member `operator*`: `make_pair(idx, *range->begin())`. -/
def deref [Iterator I α] (c : enumerating_iterator I S) : Option (Nat × α) :=
  match c.range with
  | none => none
  | some r =>
    match Iterator.read r.begin_ with
    | none => none
    | some x => some (c.idx, x)

/-- The member `operator++()`. -/
def preInc [Iterator I α] [SentinelFor S I] (c : enumerating_iterator I S) :
    enumerating_iterator I S :=
  match c.range with
  | some r => ⟨(c.idx + 1) % SIZE_MOD, some (r.advance 1)⟩
  | none => c

/-- The member `operator++(int)`; the returned reference is the cursor
itself, in the state given here. -/
def postInc [Iterator I α] [SentinelFor S I] (c : enumerating_iterator I S) :
    enumerating_iterator I S :=
  match c.range with
  | some r => ⟨(c.idx + 1) % SIZE_MOD, some (r.advance 1)⟩
  | none => c

/-- The member `operator--()`. -/
def preDec [Iterator I α] [SentinelFor S I] (c : enumerating_iterator I S) :
    enumerating_iterator I S :=
  match c.range with
  | some r => ⟨(c.idx + (SIZE_MOD - 1)) % SIZE_MOD, some (r.advance (-1))⟩
  | none => c

/-- The member `operator--(int)`; the returned reference is the cursor
itself, in the state given here. -/
def postDec [Iterator I α] [SentinelFor S I] (c : enumerating_iterator I S) :
    enumerating_iterator I S :=
  match c.range with
  | some r => ⟨(c.idx + (SIZE_MOD - 1)) % SIZE_MOD, some (r.advance (-1))⟩
  | none => c

/-- The member `operator==`, with `self` as `*this`. -/
def eq [BEq I] [BEq S] [SentinelFor S I]
    (self other : enumerating_iterator I S) : Bool :=
  match other.range with
  | none =>
    match self.range with
    | some r => SentinelFor.reached r.begin_ r.end_
    | none => true
  | some o =>
    match self.range with
    | some r => decide (other.idx = self.idx) && (o.begin_ == r.begin_) && (o.end_ == r.end_)
    | none => false

/-- The member `operator!=`. -/
def ne [BEq I] [BEq S] [SentinelFor S I]
    (self other : enumerating_iterator I S) : Bool :=
  !(self.eq other)

end enumerating_iterator

/-! ## `mine::enumerate` and the loop that consumes it -/

/-- The overload `enumerate(R&& r)`. -/
def enumerate {R I S : Type} [Range R I S] (r : R) :
    Subrange (enumerating_iterator I S) (enumerating_iterator I S) :=
  ⟨enumerating_iterator.mk_bound (Range.begin r) (Range.end_ r),
   enumerating_iterator.sentinel⟩

/-- The overload `enumerate(I begin, S end)`. -/
def enumerateIS {I S : Type} (b : I) (e : S) :
    Subrange (enumerating_iterator I S) (enumerating_iterator I S) :=
  ⟨enumerating_iterator.mk_bound b e, enumerating_iterator.sentinel⟩

/-- The range-based `for` of `main`:
`for (it = begin; it != end; ++it) body(*it)`, collecting the pairs handed
to the body.  `none` when the fuel runs out or a dereference is undefined. -/
def rangeFor {I S α : Type} [Iterator I α] [BEq I] [BEq S] [SentinelFor S I] :
    Nat → enumerating_iterator I S → enumerating_iterator I S → Option (List (Nat × α))
  | 0, _, _ => none
  | fuel + 1, it, e =>
    if it.ne e then
      match it.deref with
      | none => none
      | some p =>
        match rangeFor fuel it.preInc e with
        | none => none
        | some rest => some (p :: rest)
    else some []

/-- Running the loop of `main` over a whole range value. -/
def rangeForAll {I S α : Type} [Iterator I α] [BEq I] [BEq S] [SentinelFor S I]
    (fuel : Nat)
    (rg : Subrange (enumerating_iterator I S) (enumerating_iterator I S)) :
    Option (List (Nat × α)) :=
  rangeFor fuel rg.begin_ rg.end_

/-- The vector `values` of `main`. -/
def values : Vec Int := ⟨0, 4096, [123, 0, 1, 2, 3, 4, 5, 42], by decide⟩

/-- The temporary vector of `main`. -/
def temporary : Vec Int := ⟨1, 8192, [-1, -2, -3, -4], by decide⟩

/-- The begin cursor of the sub-range of `values` that skips its first
element, retreated once: it stands on the first element with the index
wrapped round to `2 ^ 64 - 1`. -/
def wrapped_cursor : enumerating_iterator (VecIter Int) (VecIter Int) :=
  (enumerateIS (Iterator.next values.begin) values.end_).begin_.preDec

/-! ## Sequences of advances and retreats -/

/-- One call of an advancing member of the cursor: `++c`, `c++`, `--c` or
`c--`. -/
inductive Step where
  | preInc
  | postInc
  | preDec
  | postDec

/-- The state of the cursor after the call. -/
def Step.apply {I S α : Type} [Iterator I α] [SentinelFor S I]
    (s : Step) (c : enumerating_iterator I S) : enumerating_iterator I S :=
  match s with
  | Step.preInc => c.preInc
  | Step.postInc => c.postInc
  | Step.preDec => c.preDec
  | Step.postDec => c.postDec

/-- The state of the cursor after a sequence of calls, first call first. -/
def run {I S α : Type} [Iterator I α] [SentinelFor S I] :
    List Step → enumerating_iterator I S → enumerating_iterator I S
  | [], c => c
  | s :: rest, c => run rest (s.apply c)

/-- What a call counts for: `+1` for a forward advance, `-1` for a
retreat. -/
def Step.delta : Step → Int
  | Step.preInc => 1
  | Step.postInc => 1
  | Step.preDec => -1
  | Step.postDec => -1

/-- Forward advances minus backward retreats of a sequence of calls. -/
def net : List Step → Int
  | [] => 0
  | s :: rest => s.delta + net rest

/-- What a call of an advancing member leaves behind: the value read through
the reference it returns, and the state of the cursor it was called on. -/
structure Outcome (I : Type) (S : Type) where
  returned : enumerating_iterator I S
  state : enumerating_iterator I S

/-- A call of one of the four advancing members.  Each of them ends in
`return *this;` with return type `this_type&`: the caller reads the cursor
itself, in its state after the call. -/
def Step.call {I S α : Type} [Iterator I α] [SentinelFor S I]
    (s : Step) (c : enumerating_iterator I S) : Outcome I S :=
  ⟨s.apply c, s.apply c⟩

/-- Five forward advances followed by one retreat. -/
def overrun : List Step :=
  [Step.preInc, Step.preInc, Step.preInc, Step.preInc, Step.preInc, Step.preDec]

/-- The begin cursor of `enumerate(temporary)` advanced over all four
elements: it stands on the end marker. -/
def exhausted_cursor : enumerating_iterator (VecIter Int) (VecIter Int) :=
  Nat.iterate enumerating_iterator.preInc 4 (enumerate temporary).begin_

/-! ## Basic facts about the substrate -/

section generic

variable {I S α : Type}

theorem Subrange.advance_one [Iterator I α] [SentinelFor S I] (r : Subrange I S) :
    r.advance 1 =
      if SentinelFor.reached r.begin_ r.end_ then r
      else ⟨Iterator.next r.begin_, r.end_⟩ := by
  cases r with
  | mk b e =>
    simp only [Subrange.advance]
    have h1 : ¬ ((1 : Int) < 0) := by decide
    have h2 : (1 : Int).toNat = 1 := rfl
    rw [if_neg h1, h2]
    simp only [advanceBounded]
    split <;> rfl

theorem Subrange.advance_neg_one [Iterator I α] [SentinelFor S I] (r : Subrange I S) :
    r.advance (-1) = ⟨Iterator.prev r.begin_, r.end_⟩ := by
  cases r with
  | mk b e =>
    simp only [Subrange.advance]
    have h1 : ((-1 : Int) < 0) := by decide
    have h2 : (-1 : Int).natAbs = 1 := rfl
    rw [if_pos h1, h2]
    rfl

end generic

/-! ## Vector iterators -/

section vector

variable {α : Type}

theorem VecIter.beq_def (a b : VecIter α) :
    (a == b) = decide ((a.vec.data : Int) + a.off = (b.vec.data : Int) + b.off) := rfl

theorem VecIter.reached_def (a b : VecIter α) :
    SentinelFor.reached a b
      = decide ((a.vec.data : Int) + a.off = (b.vec.data : Int) + b.off) := rfl

theorem VecIter.read_natCast (v : Vec α) (j : Nat) :
    Iterator.read (⟨v, (j : Int)⟩ : VecIter α) = v.elems[j]? := by
  show (if (0 : Int) ≤ (j : Int) then v.elems[((j : Int)).toNat]? else none) = v.elems[j]?
  rw [if_pos (Int.ofNat_nonneg j), Int.toNat_ofNat]

theorem VecIter.next_def (v : Vec α) (p : Int) :
    Iterator.next (⟨v, p⟩ : VecIter α) = ⟨v, p + 1⟩ := rfl

theorem VecIter.prev_def (v : Vec α) (p : Int) :
    Iterator.prev (⟨v, p⟩ : VecIter α) = ⟨v, p - 1⟩ := rfl

/-- The loop of `main` over the window of `n` elements starting at offset
`j`, entered with index `k`. -/
theorem rangeFor_vec (v : Vec α) :
    ∀ (n j k fuel : Nat) (p e : Int), p = (j : Int) → e = (j : Int) + n →
      j + n ≤ v.elems.length → (n = 0 ∨ k + n ≤ SIZE_MOD) → n < fuel →
      rangeFor fuel (⟨k, some ⟨⟨v, p⟩, ⟨v, e⟩⟩⟩ : enumerating_iterator (VecIter α) (VecIter α))
          enumerating_iterator.sentinel
        = some (List.enumFrom k ((v.elems.drop j).take n)) := by
  intro n
  induction n with
  | zero =>
    intro j k fuel p e hp he _ _ hfuel
    obtain ⟨f, rfl⟩ : ∃ f, fuel = f + 1 := ⟨fuel - 1, by omega⟩
    have hpe : p = e := by omega
    simp [rangeFor, enumerating_iterator.ne, enumerating_iterator.eq,
      enumerating_iterator.sentinel, VecIter.reached_def, hpe]
  | succ n ih =>
    intro j k fuel p e hp he hlen hk hfuel
    obtain ⟨f, rfl⟩ : ∃ f, fuel = f + 1 := ⟨fuel - 1, by omega⟩
    have hpe : p ≠ e := by omega
    have hj : j < v.elems.length := by omega
    have hread : Iterator.read (⟨v, p⟩ : VecIter α) = some v.elems[j] := by
      rw [hp, VecIter.read_natCast, List.getElem?_eq_getElem hj]
    have hrest := ih (j + 1) ((k + 1) % SIZE_MOD) f (p + 1) e
      (by push_cast; omega) (by push_cast; omega) (by omega)
      (by
        rcases Nat.eq_zero_or_pos n with h0 | h0
        · exact Or.inl h0
        · right
          have hk1 : k + (n + 1) ≤ SIZE_MOD := by
            rcases hk with h | h
            · omega
            · exact h
          rw [Nat.mod_eq_of_lt (by omega)]
          omega)
      (by omega)
    have hidx : List.enumFrom ((k + 1) % SIZE_MOD) ((v.elems.drop (j + 1)).take n)
        = List.enumFrom (k + 1) ((v.elems.drop (j + 1)).take n) := by
      rcases Nat.eq_zero_or_pos n with h0 | h0
      · subst h0
        simp
      · have hk1 : k + (n + 1) ≤ SIZE_MOD := by
          rcases hk with h | h
          · omega
          · exact h
        rw [Nat.mod_eq_of_lt (by omega)]
    rw [hidx] at hrest
    simp only [enumerating_iterator.sentinel] at hrest
    have hdrop : (v.elems.drop j).take (n + 1)
        = v.elems[j] :: (v.elems.drop (j + 1)).take n := by
      rw [List.drop_eq_getElem_cons hj, List.take_succ_cons]
    rw [hdrop, List.enumFrom_cons]
    simp [rangeFor, enumerating_iterator.ne, enumerating_iterator.eq,
      enumerating_iterator.sentinel, VecIter.reached_def, hpe,
      enumerating_iterator.deref, hread, enumerating_iterator.preInc,
      Subrange.advance_one, VecIter.next_def, hrest]

theorem ReverseIter.reached_rev (a b : ReverseIter (VecIter α)) :
    SentinelFor.reached a b
      = decide ((a.current.vec.data : Int) + a.current.off
          = (b.current.vec.data : Int) + b.current.off) := rfl

theorem ReverseIter.read_rev (v : Vec α) (p : Int) :
    Iterator.read (⟨⟨v, p⟩⟩ : ReverseIter (VecIter α))
      = Iterator.read (⟨v, p - 1⟩ : VecIter α) := rfl

theorem ReverseIter.next_rev (v : Vec α) (p : Int) :
    Iterator.next (⟨⟨v, p⟩⟩ : ReverseIter (VecIter α)) = ⟨⟨v, p - 1⟩⟩ := rfl

/-- The loop of `main` over reverse iterators, entered with index `k` and
the base iterator at offset `n`: the first `n` elements come out last to
first. -/
theorem rangeFor_rvec (v : Vec α) :
    ∀ (n k fuel : Nat) (p : Int), p = (n : Int) →
      n ≤ v.elems.length → (n = 0 ∨ k + n ≤ SIZE_MOD) → n < fuel →
      rangeFor fuel
          (⟨k, some ⟨⟨⟨v, p⟩⟩, ⟨⟨v, 0⟩⟩⟩⟩ :
            enumerating_iterator (ReverseIter (VecIter α)) (ReverseIter (VecIter α)))
          enumerating_iterator.sentinel
        = some (List.enumFrom k (v.elems.take n).reverse) := by
  intro n
  induction n with
  | zero =>
    intro k fuel p hp _ _ hfuel
    obtain ⟨f, rfl⟩ : ∃ f, fuel = f + 1 := ⟨fuel - 1, by omega⟩
    have hpe : p = 0 := by omega
    simp [rangeFor, enumerating_iterator.ne, enumerating_iterator.eq,
      enumerating_iterator.sentinel, ReverseIter.reached_rev, hpe]
  | succ n ih =>
    intro k fuel p hp hlen hk hfuel
    obtain ⟨f, rfl⟩ : ∃ f, fuel = f + 1 := ⟨fuel - 1, by omega⟩
    have hpe : p ≠ 0 := by omega
    have hn : n < v.elems.length := by omega
    have hp1 : p - 1 = (n : Int) := by omega
    have hread : Iterator.read (⟨⟨v, p⟩⟩ : ReverseIter (VecIter α)) = some v.elems[n] := by
      rw [ReverseIter.read_rev, hp1, VecIter.read_natCast, List.getElem?_eq_getElem hn]
    have hrest := ih ((k + 1) % SIZE_MOD) f (p - 1) hp1 (by omega)
      (by
        rcases Nat.eq_zero_or_pos n with h0 | h0
        · exact Or.inl h0
        · right
          have hk1 : k + (n + 1) ≤ SIZE_MOD := by
            rcases hk with h | h
            · omega
            · exact h
          rw [Nat.mod_eq_of_lt (by omega)]
          omega)
      (by omega)
    have hidx : List.enumFrom ((k + 1) % SIZE_MOD) (v.elems.take n).reverse
        = List.enumFrom (k + 1) (v.elems.take n).reverse := by
      rcases Nat.eq_zero_or_pos n with h0 | h0
      · subst h0
        simp
      · have hk1 : k + (n + 1) ≤ SIZE_MOD := by
          rcases hk with h | h
          · omega
          · exact h
        rw [Nat.mod_eq_of_lt (by omega)]
    rw [hidx] at hrest
    simp only [enumerating_iterator.sentinel] at hrest
    have htake : (v.elems.take (n + 1)).reverse
        = v.elems[n] :: (v.elems.take n).reverse := by
      rw [List.take_succ, List.getElem?_eq_getElem hn]
      simp
    rw [htake, List.enumFrom_cons]
    simp [rangeFor, enumerating_iterator.ne, enumerating_iterator.eq,
      enumerating_iterator.sentinel, ReverseIter.reached_rev, hpe,
      enumerating_iterator.deref, hread, enumerating_iterator.preInc,
      Subrange.advance_one, ReverseIter.next_rev, hrest]

/-- A list enumerated from zero, written out position by position. -/
theorem enumFrom_zero_eq_ofFn (l : List α) (n : Nat) (f : Fin n → α)
    (hlen : l.length = n) (hget : ∀ i : Fin n, l[i.val]? = some (f i)) :
    List.enumFrom 0 l = List.ofFn (fun i : Fin n => (i.val, f i)) := by
  apply List.ext_getElem
  · simp [hlen]
  · intro i h1 h2
    have hi : i < n := by simpa using h2
    have hl : i < l.length := by omega
    have hfi := hget ⟨i, hi⟩
    rw [List.getElem?_eq_getElem hl] at hfi
    simp only [Option.some.injEq] at hfi
    simp [List.getElem_enumFrom, hfi]

theorem VecIter.iterate_next (v : Vec α) (p : Int) (a : Nat) :
    Nat.iterate Iterator.next a (⟨v, p⟩ : VecIter α) = ⟨v, p + a⟩ := by
  induction a generalizing p with
  | zero => simp
  | succ a ih =>
    rw [Function.iterate_succ_apply, VecIter.next_def, ih]
    congr 1
    push_cast
    omega

theorem VecIter.iterate_prev (v : Vec α) (p : Int) (b : Nat) :
    Nat.iterate Iterator.prev b (⟨v, p⟩ : VecIter α) = ⟨v, p - b⟩ := by
  induction b generalizing p with
  | zero => simp
  | succ b ih =>
    rw [Function.iterate_succ_apply, VecIter.prev_def, ih]
    congr 1
    push_cast
    omega

/-- The begin cursor of `enumerate(v)` after `k ≤ N` forward advances: index
`k`, position `k`, end marker untouched. -/
theorem iterate_preInc_enumerate (v : Vec α) (k : Nat) (hk : k ≤ v.elems.length) :
    Nat.iterate enumerating_iterator.preInc k (enumerate v).begin_
      = ⟨k, some ⟨⟨v, (k : Int)⟩, ⟨v, (v.elems.length : Int)⟩⟩⟩ := by
  induction k with
  | zero => rfl
  | succ k ih =>
    have hsz := v.size_lt
    have hne : (k : Int) ≠ (v.elems.length : Int) := by omega
    rw [Function.iterate_succ_apply', ih (by omega)]
    simp [enumerating_iterator.preInc, Subrange.advance_one, VecIter.reached_def, hne,
      VecIter.next_def, Nat.mod_eq_of_lt (show k + 1 < SIZE_MOD by omega)]

end vector

/-! ## The cursor contract -/

section contract

variable {I S α : Type}

/-- C5: against an unbound (sentinel) right-hand side, `self == other` holds
exactly when `self` is unbound too, or `self` is bound and its position
compares equal to its own end marker; the index plays no part. -/
theorem eq_sentinel_iff [BEq I] [BEq S] [SentinelFor S I]
    (self other : enumerating_iterator I S) (h : other.range = none) :
    self.eq other = true ↔
      (self.range = none ∨
        ∃ r, self.range = some r ∧ SentinelFor.reached r.begin_ r.end_ = true) := by
  cases self with
  | mk i rg =>
    cases rg with
    | none => simp [enumerating_iterator.eq, h]
    | some r => simp [enumerating_iterator.eq, h]

/-- C5 at the begin cursor of `enumerate(temporary)` against the sentinel. -/
theorem eq_sentinel_iff_witness :
    (enumerate temporary).end_.range = none ∧
    ((enumerate temporary).begin_.eq (enumerate temporary).end_ = true ↔
      ((enumerate temporary).begin_.range = none ∨
        ∃ r, (enumerate temporary).begin_.range = some r ∧
          SentinelFor.reached r.begin_ r.end_ = true)) :=
  ⟨rfl, eq_sentinel_iff (enumerate temporary).begin_ (enumerate temporary).end_ rfl⟩

/-- C6: against a bound right-hand side, `self == other` holds exactly when
`self` is bound, the indices are the same, the held positions compare equal
and the end markers compare equal. -/
theorem eq_bound_iff [BEq I] [BEq S] [SentinelFor S I]
    (self other : enumerating_iterator I S) (o : Subrange I S)
    (h : other.range = some o) :
    self.eq other = true ↔
      ∃ r, self.range = some r ∧ self.idx = other.idx ∧
        (o.begin_ == r.begin_) = true ∧ (o.end_ == r.end_) = true := by
  cases self with
  | mk i rg =>
    cases rg with
    | none => simp [enumerating_iterator.eq, h]
    | some r =>
      simp only [enumerating_iterator.eq, h, Bool.and_eq_true, decide_eq_true_eq,
        Option.some.injEq, exists_eq_left']
      constructor
      · rintro ⟨⟨h1, h2⟩, h3⟩
        exact ⟨h1.symm, h2, h3⟩
      · rintro ⟨h1, h2, h3⟩
        exact ⟨⟨h1.symm, h2⟩, h3⟩

/-- C6 at the begin cursor of `enumerate(values)` against itself. -/
theorem eq_bound_iff_witness :
    (enumerate values).begin_.range = some ⟨values.begin, values.end_⟩ ∧
    ((enumerate values).begin_.eq (enumerate values).begin_ = true ↔
      ∃ r, (enumerate values).begin_.range = some r ∧
        (enumerate values).begin_.idx = (enumerate values).begin_.idx ∧
        (values.begin == r.begin_) = true ∧ (values.end_ == r.end_) = true) :=
  ⟨rfl, eq_bound_iff (enumerate values).begin_ (enumerate values).begin_
    ⟨values.begin, values.end_⟩ rfl⟩

/-- C8: dereferencing a bound cursor (in particular one that is not
exhausted) yields the pair of its current index and the element read at its
current position, and nothing where that position holds no element;
`operator*` is a `const` member, so the cursor it is applied to is the same
before and after. -/
theorem deref_bound [Iterator I α]
    (c : enumerating_iterator I S) (r : Subrange I S) (h : c.range = some r) :
    c.deref = (Iterator.read r.begin_).map (fun x => (c.idx, x)) := by
  cases c with
  | mk i rg =>
    simp only at h
    subst h
    simp only [enumerating_iterator.deref]
    cases Iterator.read r.begin_ <;> rfl

/-- C8 at the begin cursor of `enumerate(values)`: the pair `(0, 123)`. -/
theorem deref_bound_witness :
    (enumerate values).begin_.range = some ⟨values.begin, values.end_⟩ ∧
    (enumerate values).begin_.deref = some (0, 123) :=
  ⟨rfl, (deref_bound (enumerate values).begin_ ⟨values.begin, values.end_⟩ rfl).trans
    (by decide)⟩

/-- C9, as stated, fails: a bound cursor standing on the first element of
`values` with index `2 ^ 64 - 1` is not exhausted, and advancing it gives
index `0`, not the old index plus one. -/
theorem preInc_index_wraps :
    wrapped_cursor.range.map (fun r => SentinelFor.reached r.begin_ r.end_) = some false ∧
    wrapped_cursor.idx = SIZE_MOD - 1 ∧
    wrapped_cursor.preInc.idx = 0 ∧
    wrapped_cursor.preInc.idx ≠ wrapped_cursor.idx + 1 := by
  decide

/-- C9 (amended): for a bound cursor that is not exhausted, `operator++`
gives a bound cursor whose index is the old index plus one modulo `2 ^ 64`
(the old index plus one whenever that fits `std::size_t`), whose position is
the old position moved one step forward, and whose end marker is the old
one. -/
theorem preInc_bound [Iterator I α] [SentinelFor S I]
    (c : enumerating_iterator I S) (r : Subrange I S)
    (h : c.range = some r) (hne : SentinelFor.reached r.begin_ r.end_ = false) :
    c.preInc = ⟨(c.idx + 1) % SIZE_MOD, some ⟨Iterator.next r.begin_, r.end_⟩⟩ ∧
      (c.idx + 1 < SIZE_MOD → c.preInc.idx = c.idx + 1) := by
  have hstep : c.preInc
      = ⟨(c.idx + 1) % SIZE_MOD, some ⟨Iterator.next r.begin_, r.end_⟩⟩ := by
    simp [enumerating_iterator.preInc, h, Subrange.advance_one, hne]
  refine ⟨hstep, fun hlt => ?_⟩
  rw [hstep]
  exact Nat.mod_eq_of_lt hlt

/-- C9 (amended) at the begin cursor of `enumerate(values)`. -/
theorem preInc_bound_witness :
    (enumerate values).begin_.range = some ⟨values.begin, values.end_⟩ ∧
    SentinelFor.reached values.begin values.end_ = false ∧
    ((enumerate values).begin_.preInc
        = ⟨(0 + 1) % SIZE_MOD, some ⟨Iterator.next values.begin, values.end_⟩⟩ ∧
      ((enumerate values).begin_.idx + 1 < SIZE_MOD →
        (enumerate values).begin_.preInc.idx = (enumerate values).begin_.idx + 1)) :=
  ⟨rfl, by decide,
    preInc_bound (enumerate values).begin_ ⟨values.begin, values.end_⟩ rfl (by decide)⟩

/-- C10: for a bound cursor whose index is at least one (and fits
`std::size_t`), `operator--` gives a bound cursor whose index is the old
index minus one, whose position is the old position moved one step backward,
and whose end marker is the old one. -/
theorem preDec_bound [Iterator I α] [SentinelFor S I]
    (c : enumerating_iterator I S) (r : Subrange I S)
    (h : c.range = some r) (hpos : 1 ≤ c.idx) (hfit : c.idx < SIZE_MOD) :
    c.preDec = ⟨c.idx - 1, some ⟨Iterator.prev r.begin_, r.end_⟩⟩ := by
  have hidx : (c.idx + (SIZE_MOD - 1)) % SIZE_MOD = c.idx - 1 := by
    have h1 : c.idx + (SIZE_MOD - 1) = (c.idx - 1) + SIZE_MOD := by omega
    rw [h1, Nat.add_mod_right]
    exact Nat.mod_eq_of_lt (by omega)
  simp [enumerating_iterator.preDec, h, Subrange.advance_neg_one, hidx]

/-- C10 at the begin cursor of `enumerate(values)` advanced once. -/
theorem preDec_bound_witness :
    (enumerate values).begin_.preInc.range
        = some ⟨Iterator.next values.begin, values.end_⟩ ∧
    1 ≤ (enumerate values).begin_.preInc.idx ∧
    (enumerate values).begin_.preInc.idx < SIZE_MOD ∧
    (enumerate values).begin_.preInc.preDec
      = ⟨(enumerate values).begin_.preInc.idx - 1,
          some ⟨Iterator.prev (Iterator.next values.begin), values.end_⟩⟩ :=
  ⟨rfl, by decide, by decide,
    preDec_bound (enumerate values).begin_.preInc
      ⟨Iterator.next values.begin, values.end_⟩ rfl (by decide) (by decide)⟩

end contract

/-! ## Enumerating vectors -/

section enumeration

variable {α : Type}

/-- C1: for every vector of length `N`, the loop
`for (it = begin; it != end; ++it) body(*it)` over `enumerate(xs)` ends (any
fuel above `N` suffices) and hands the body exactly the `N` pairs
`(0, xs[0]), ..., (N-1, xs[N-1])`, in that order. -/
theorem enumerate_forward (v : Vec α) (fuel : Nat) (hfuel : v.elems.length < fuel) :
    rangeForAll fuel (enumerate v)
      = some (List.ofFn (fun i : Fin v.elems.length => (i.val, v.elems.get i))) := by
  have hsz := v.size_lt
  have h := rangeFor_vec v v.elems.length 0 0 fuel 0 (v.elems.length : Int)
    (by simp) (by simp) (by omega) (Or.inr (by omega)) hfuel
  have hconv := enumFrom_zero_eq_ofFn ((v.elems.drop 0).take v.elems.length)
    v.elems.length (fun i => v.elems.get i) (by simp)
    (by
      intro i
      simp [List.getElem?_take, i.isLt])
  rw [hconv] at h
  exact h

/-- C1 on the vector `values` of `main`. -/
theorem enumerate_forward_witness :
    values.elems.length < 9 ∧
    rangeForAll 9 (enumerate values)
      = some [(0, 123), (1, 0), (2, 1), (3, 2), (4, 3), (5, 4), (6, 5), (7, 42)] :=
  ⟨by decide, (enumerate_forward values 9 (by decide)).trans (by decide)⟩

/-- C3: for every vector of length `N`, the loop over
`enumerate(xs.rbegin(), xs.rend())` ends and yields exactly the pairs
`(i, xs[N-1-i])` for `i = 0, ..., N-1`, in increasing `i`. -/
theorem enumerate_reverse (v : Vec α) (fuel : Nat) (hfuel : v.elems.length < fuel) :
    rangeForAll fuel (enumerateIS v.rbegin v.rend)
      = some (List.ofFn (fun i : Fin v.elems.length =>
          (i.val, v.elems.get ⟨v.elems.length - 1 - i.val, by have := i.isLt; omega⟩))) := by
  have hsz := v.size_lt
  have h := rangeFor_rvec v v.elems.length 0 fuel (v.elems.length : Int)
    rfl (le_refl _) (Or.inr (by omega)) hfuel
  have hconv := enumFrom_zero_eq_ofFn (v.elems.take v.elems.length).reverse
    v.elems.length
    (fun i => v.elems.get ⟨v.elems.length - 1 - i.val, by have := i.isLt; omega⟩)
    (by simp)
    (by
      intro i
      have hi := i.isLt
      rw [List.take_length, List.getElem?_reverse hi]
      simp [List.getElem?_eq_getElem (show v.elems.length - 1 - i.val < v.elems.length by omega)])
  rw [hconv] at h
  exact h

/-- C3 on the vector `values` of `main`. -/
theorem enumerate_reverse_witness :
    values.elems.length < 9 ∧
    rangeForAll 9 (enumerateIS values.rbegin values.rend)
      = some [(0, 42), (1, 5), (2, 4), (3, 3), (4, 2), (5, 1), (6, 0), (7, 123)] :=
  ⟨by decide, (enumerate_reverse values 9 (by decide)).trans (by decide)⟩

/-- C4: for every vector of length `N` and all `a`, `b` with `a + b ≤ N`,
the loop over `enumerate(begin + a, end - b)` ends and yields exactly the
`N - a - b` pairs `(i, xs[a + i])`, `i = 0, ..., N-a-b-1`: the indices start
again at zero and only the elements of the window appear. -/
theorem enumerate_window (v : Vec α) (a b fuel : Nat)
    (hab : a + b ≤ v.elems.length) (hfuel : v.elems.length - a - b < fuel) :
    rangeForAll fuel
        (enumerateIS (Nat.iterate Iterator.next a v.begin)
          (Nat.iterate Iterator.prev b v.end_))
      = some (List.ofFn (fun i : Fin (v.elems.length - a - b) =>
          (i.val, v.elems.get ⟨a + i.val, by have := i.isLt; omega⟩))) := by
  have hsz := v.size_lt
  have h := rangeFor_vec v (v.elems.length - a - b) a 0 fuel
    ((0 : Int) + a) ((v.elems.length : Int) - b)
    (by simp) (by omega) (by omega) (Or.inr (by omega)) hfuel
  have hconv := enumFrom_zero_eq_ofFn ((v.elems.drop a).take (v.elems.length - a - b))
    (v.elems.length - a - b)
    (fun i => v.elems.get ⟨a + i.val, by have := i.isLt; omega⟩)
    (by simp)
    (by
      intro i
      have hi := i.isLt
      rw [List.getElem?_take, if_pos hi, List.getElem?_drop]
      simp [List.getElem?_eq_getElem (show a + i.val < v.elems.length by omega)])
  rw [hconv] at h
  simpa [rangeForAll, enumerateIS, enumerating_iterator.mk_bound, Vec.begin, Vec.end_,
    VecIter.iterate_next, VecIter.iterate_prev] using h

/-- C4 on the vector `values` of `main` with `a = b = 1`. -/
theorem enumerate_window_witness :
    1 + 1 ≤ values.elems.length ∧ values.elems.length - 1 - 1 < 7 ∧
    rangeForAll 7
        (enumerateIS (Nat.iterate Iterator.next 1 values.begin)
          (Nat.iterate Iterator.prev 1 values.end_))
      = some [(0, 0), (1, 1), (2, 2), (3, 3), (4, 4), (5, 5)] :=
  ⟨by decide, by decide,
    (enumerate_window values 1 1 7 (by decide) (by decide)).trans (by decide)⟩

/-- C2: for every vector of length `N` and every `k ≤ N`, the bound cursor
that `enumerate` builds over its start and end markers, advanced forward `k`
times, compares equal to the default-constructed sentinel exactly when
`k = N`; for `N = 0` the begin cursor itself already does. -/
theorem eq_sentinel_after_advances (v : Vec α) (k : Nat) (hk : k ≤ v.elems.length) :
    (Nat.iterate enumerating_iterator.preInc k (enumerateIS v.begin v.end_).begin_).eq
        enumerating_iterator.sentinel = true
      ↔ k = v.elems.length := by
  have hsame : (enumerateIS v.begin v.end_).begin_ = (enumerate v).begin_ := rfl
  rw [hsame, iterate_preInc_enumerate v k hk]
  simp [enumerating_iterator.eq, enumerating_iterator.sentinel, VecIter.reached_def]

/-- C2 on the vector `values` of `main` after all eight advances. -/
theorem eq_sentinel_after_advances_witness :
    8 ≤ values.elems.length ∧
    ((Nat.iterate enumerating_iterator.preInc 8
        (enumerateIS values.begin values.end_).begin_).eq
        enumerating_iterator.sentinel = true ↔ 8 = values.elems.length) :=
  ⟨by decide, eq_sentinel_after_advances values 8 (by decide)⟩

end enumeration


/-! ## The sentinel, the two overloads and the post- forms -/

section behaviour

variable {I S α : Type}

theorem succ_mod_ne (i : Nat) : (i + 1) % SIZE_MOD ≠ i := by
  simp only [SIZE_MOD]
  omega

theorem pred_mod_ne (i : Nat) : (i + (SIZE_MOD - 1)) % SIZE_MOD ≠ i := by
  simp only [SIZE_MOD]
  omega

theorem Step.apply_unbound [Iterator I α] [SentinelFor S I]
    (s : Step) (c : enumerating_iterator I S) (h : c.range = none) : s.apply c = c := by
  cases s <;>
    simp [Step.apply, enumerating_iterator.preInc, enumerating_iterator.postInc,
      enumerating_iterator.preDec, enumerating_iterator.postDec, h]

/-- C11: on an unbound (sentinel) cursor each of `++c`, `c++`, `--c`, `c--`
changes nothing, so after any sequence of such calls the cursor is the one
it was: still unbound, index as before; the default-constructed sentinel
stays unbound with index `0`. -/
theorem sentinel_steps_noop [Iterator I α] [SentinelFor S I]
    (c : enumerating_iterator I S) (h : c.range = none) (ops : List Step) :
    c.preInc = c ∧ c.postInc = c ∧ c.preDec = c ∧ c.postDec = c ∧
      run ops c = c ∧
      run ops (enumerating_iterator.sentinel : enumerating_iterator I S) = ⟨0, none⟩ := by
  have hrun : ∀ (l : List Step) (d : enumerating_iterator I S), d.range = none →
      run l d = d := by
    intro l
    induction l with
    | nil => intro d _; rfl
    | cons s rest ih =>
      intro d hd
      rw [run, Step.apply_unbound s d hd]
      exact ih d hd
  refine ⟨Step.apply_unbound Step.preInc c h, Step.apply_unbound Step.postInc c h,
    Step.apply_unbound Step.preDec c h, Step.apply_unbound Step.postDec c h,
    hrun ops c h, hrun ops _ rfl⟩

/-- C11 at the end cursor of `enumerate(values)`, five advances and a
retreat. -/
theorem sentinel_steps_noop_witness :
    (enumerate values).end_.range = none ∧
    run overrun (enumerate values).end_ = (enumerate values).end_ :=
  ⟨rfl, (sentinel_steps_noop (enumerate values).end_ rfl overrun).2.2.2.2.1⟩

/-- C13: `enumerate(r)` is the range whose begin is the bound cursor with
index `0`, position `begin(r)` and end marker `end(r)`, and whose end is the
default-constructed sentinel (unbound, index `0`); it is the range that
`enumerate(begin(r), end(r))` returns. -/
theorem enumerate_shape {R : Type} [Range R I S] (r : R) :
    (enumerate r).begin_ = ⟨0, some ⟨Range.begin r, Range.end_ r⟩⟩ ∧
    (enumerate r).end_ = enumerating_iterator.sentinel ∧
    (enumerate r).end_ = ⟨0, none⟩ ∧
    enumerate r = enumerateIS (Range.begin r) (Range.end_ r) :=
  ⟨rfl, rfl, rfl, rfl⟩

/-- C14: `operator==` is not symmetric.  An exhausted bound cursor equals
the sentinel, while the sentinel on the left never equals a bound cursor.
Between two bound cursors (the markers' own `==` being symmetric, as
`std::equality_comparable` requires) and between two sentinels, `a == b` and
`b == a` agree. -/
theorem eq_not_symmetric [BEq I] [BEq S] [SentinelFor S I]
    (hI : ∀ x y : I, (x == y) = (y == x)) (hS : ∀ x y : S, (x == y) = (y == x))
    (a b : enumerating_iterator I S) :
    (∀ r, a.range = some r → b.range = none →
      (SentinelFor.reached r.begin_ r.end_ = true → a.eq b = true) ∧ b.eq a = false) ∧
    (∀ ra rb, a.range = some ra → b.range = some rb → a.eq b = b.eq a) ∧
    (a.range = none → b.range = none → a.eq b = true ∧ b.eq a = true) := by
  refine ⟨?_, ?_, ?_⟩
  · intro r ha hb
    constructor
    · intro hx
      simp [enumerating_iterator.eq, ha, hb, hx]
    · simp [enumerating_iterator.eq, ha, hb]
  · intro ra rb ha hb
    simp only [enumerating_iterator.eq, ha, hb]
    rw [hI rb.begin_ ra.begin_, hS rb.end_ ra.end_]
    congr 2
    exact Bool.decide_congr ⟨fun h => h.symm, fun h => h.symm⟩
  · intro ha hb
    simp [enumerating_iterator.eq, ha, hb]

/-- C14 at the exhausted cursor over `temporary` against the sentinel. -/
theorem eq_not_symmetric_witness :
    exhausted_cursor.eq enumerating_iterator.sentinel = true ∧
    (enumerating_iterator.sentinel : enumerating_iterator (VecIter Int) (VecIter Int)).eq
      exhausted_cursor = false :=
  have h := (eq_not_symmetric
    (fun x y : VecIter Int => by simp only [VecIter.beq_def, eq_comm])
    (fun x y : VecIter Int => by simp only [VecIter.beq_def, eq_comm])
    exhausted_cursor enumerating_iterator.sentinel).1
      ⟨⟨temporary, 4⟩, ⟨temporary, 4⟩⟩ rfl rfl
  ⟨h.1 (by decide), h.2⟩

/-- C16: `c++` and `c--` do what `++c` and `--c` do: the cursor is left in
the same state, and what the caller gets back is that already-moved cursor,
which for a bound cursor is never the value it had before the call. -/
theorem post_forms_as_pre_forms [Iterator I α] [SentinelFor S I]
    (c : enumerating_iterator I S) :
    c.postInc = c.preInc ∧ c.postDec = c.preDec ∧
    Step.postInc.call c = Step.preInc.call c ∧
    Step.postDec.call c = Step.preDec.call c ∧
    (Step.postInc.call c).returned = c.preInc ∧ (Step.postInc.call c).state = c.preInc ∧
    (Step.postDec.call c).returned = c.preDec ∧ (Step.postDec.call c).state = c.preDec ∧
    (c.range ≠ none →
      (Step.postInc.call c).returned ≠ c ∧ (Step.postDec.call c).returned ≠ c) := by
  refine ⟨rfl, rfl, rfl, rfl, rfl, rfl, rfl, rfl, ?_⟩
  intro hb
  cases c with
  | mk i rg =>
    cases rg with
    | none => exact absurd rfl hb
    | some r =>
      constructor
      · intro h
        have hidx := congrArg enumerating_iterator.idx h
        exact succ_mod_ne i hidx
      · intro h
        have hidx := congrArg enumerating_iterator.idx h
        exact pred_mod_ne i hidx

/-- C16 at the begin cursor of `enumerate(values)`. -/
theorem post_forms_as_pre_forms_witness :
    (enumerate values).begin_.range ≠ none ∧
    (Step.postInc.call (enumerate values).begin_).returned ≠ (enumerate values).begin_ ∧
    (Step.postDec.call (enumerate values).begin_).returned ≠ (enumerate values).begin_ :=
  ⟨by simp [enumerate, enumerating_iterator.mk_bound],
    (post_forms_as_pre_forms (enumerate values).begin_).2.2.2.2.2.2.2.2
      (by simp [enumerate, enumerating_iterator.mk_bound])⟩

theorem iterate_preInc_exhausted [Iterator I α] [SentinelFor S I]
    (r : Subrange I S) (hx : SentinelFor.reached r.begin_ r.end_ = true) (k : Nat) :
    ∀ i : Nat, ∃ j : Nat,
      Nat.iterate enumerating_iterator.preInc k (⟨i, some r⟩ : enumerating_iterator I S)
        = ⟨j, some r⟩ := by
  induction k with
  | zero => intro i; exact ⟨i, rfl⟩
  | succ k ih =>
    intro i
    obtain ⟨j, hj⟩ := ih i
    rw [Function.iterate_succ_apply', hj]
    exact ⟨(j + 1) % SIZE_MOD, by
      simp [enumerating_iterator.preInc, Subrange.advance_one, hx]⟩

/-- C18: on a bound cursor whose position equals its end marker,
`operator++` leaves position and end marker as they are and still steps the
index (to the old index plus one modulo `2 ^ 64`, never the old index);
after any number of further forward advances the cursor still compares equal
to the sentinel, while after one advance it no longer compares equal to its
own copy from before the advance, in either order. -/
theorem exhausted_absorbing [Iterator I α] [BEq I] [BEq S] [SentinelFor S I]
    (c : enumerating_iterator I S) (r : Subrange I S) (h : c.range = some r)
    (hx : SentinelFor.reached r.begin_ r.end_ = true)
    (s : enumerating_iterator I S) (hs : s.range = none) (k : Nat) :
    c.preInc = ⟨(c.idx + 1) % SIZE_MOD, some r⟩ ∧
    c.preInc.idx ≠ c.idx ∧
    (Nat.iterate enumerating_iterator.preInc k c).eq s = true ∧
    c.preInc.eq c = false ∧ c.eq c.preInc = false := by
  cases c with
  | mk i rg =>
    simp only at h
    subst h
    have hstep : (⟨i, some r⟩ : enumerating_iterator I S).preInc
        = ⟨(i + 1) % SIZE_MOD, some r⟩ := by
      simp [enumerating_iterator.preInc, Subrange.advance_one, hx]
    obtain ⟨j, hj⟩ := iterate_preInc_exhausted r hx k i
    refine ⟨hstep, ?_, ?_, ?_, ?_⟩
    · rw [hstep]
      exact succ_mod_ne i
    · rw [hj]
      simp [enumerating_iterator.eq, hs, hx]
    · rw [hstep]
      have hne : ¬ (i = (i + 1) % SIZE_MOD) := fun e => succ_mod_ne i e.symm
      simp [enumerating_iterator.eq, hne]
    · rw [hstep]
      simp [enumerating_iterator.eq, succ_mod_ne i]

/-- C18 at the exhausted cursor over `temporary`, three further advances. -/
theorem exhausted_absorbing_witness :
    exhausted_cursor.range = some ⟨⟨temporary, 4⟩, ⟨temporary, 4⟩⟩ ∧
    (Nat.iterate enumerating_iterator.preInc 3 exhausted_cursor).eq
      enumerating_iterator.sentinel = true ∧
    exhausted_cursor.preInc.eq exhausted_cursor = false :=
  have h := exhausted_absorbing exhausted_cursor ⟨⟨temporary, 4⟩, ⟨temporary, 4⟩⟩ rfl
    (by decide) enumerating_iterator.sentinel rfl 3
  ⟨rfl, h.2.2.1, h.2.2.2.1⟩

theorem Step.apply_bound [Iterator I α] [SentinelFor S I]
    (s : Step) (c : enumerating_iterator I S) (hb : c.range ≠ none) :
    (s.apply c).range ≠ none ∧ (s.apply c).idx < SIZE_MOD ∧
      ((s.apply c).idx : Int) = ((c.idx : Int) + s.delta) % (SIZE_MOD : Int) := by
  have hpos : 0 < SIZE_MOD := by decide
  cases c with
  | mk i rg =>
    cases rg with
    | none => exact absurd rfl hb
    | some r =>
      cases s
      · refine ⟨by simp [Step.apply, enumerating_iterator.preInc], Nat.mod_lt _ hpos, ?_⟩
        show (((i + 1) % SIZE_MOD : Nat) : Int) = ((i : Int) + 1) % (SIZE_MOD : Int)
        simp only [SIZE_MOD]
        omega
      · refine ⟨by simp [Step.apply, enumerating_iterator.postInc], Nat.mod_lt _ hpos, ?_⟩
        show (((i + 1) % SIZE_MOD : Nat) : Int) = ((i : Int) + 1) % (SIZE_MOD : Int)
        simp only [SIZE_MOD]
        omega
      · refine ⟨by simp [Step.apply, enumerating_iterator.preDec], Nat.mod_lt _ hpos, ?_⟩
        show (((i + (SIZE_MOD - 1)) % SIZE_MOD : Nat) : Int)
          = ((i : Int) + (-1)) % (SIZE_MOD : Int)
        simp only [SIZE_MOD]
        omega
      · refine ⟨by simp [Step.apply, enumerating_iterator.postDec], Nat.mod_lt _ hpos, ?_⟩
        show (((i + (SIZE_MOD - 1)) % SIZE_MOD : Nat) : Int)
          = ((i : Int) + (-1)) % (SIZE_MOD : Int)
        simp only [SIZE_MOD]
        omega

/-- The index of a bound cursor after a sequence of calls: the old index
plus advances minus retreats, modulo `2 ^ 64`. -/
theorem run_idx [Iterator I α] [SentinelFor S I] (ops : List Step) :
    ∀ c : enumerating_iterator I S, c.range ≠ none → c.idx < SIZE_MOD →
      ((run ops c).idx : Int) = ((c.idx : Int) + net ops) % (SIZE_MOD : Int) := by
  induction ops with
  | nil =>
    intro c _ hfit
    simp only [run, net, SIZE_MOD] at *
    omega
  | cons s rest ih =>
    intro c hb _
    obtain ⟨hb1, hfit1, hidx1⟩ := Step.apply_bound s c hb
    have h := ih (s.apply c) hb1 hfit1
    rw [run, h, hidx1]
    simp only [net, SIZE_MOD]
    omega

/-- C17: the index is a 64-bit unsigned word with no guard against going
below zero: `--c` and `c--` on a bound cursor with index `0` give index
`2 ^ 64 - 1` with the position moved one step back; and after any sequence
of calls on a freshly bound cursor the index is advances minus retreats
modulo `2 ^ 64`. -/
theorem index_wraps_below_zero [Iterator I α] [SentinelFor S I]
    (c : enumerating_iterator I S) (r : Subrange I S)
    (h : c.range = some r) (h0 : c.idx = 0) (b : I) (e : S) (ops : List Step) :
    c.preDec = ⟨2 ^ 64 - 1, some ⟨Iterator.prev r.begin_, r.end_⟩⟩ ∧
    c.postDec = ⟨2 ^ 64 - 1, some ⟨Iterator.prev r.begin_, r.end_⟩⟩ ∧
    ((run ops (enumerating_iterator.mk_bound b e : enumerating_iterator I S)).idx : Int)
      = net ops % (2 ^ 64 : Int) := by
  have hidx : (0 + (SIZE_MOD - 1)) % SIZE_MOD = 2 ^ 64 - 1 := by decide
  have hpre : c.preDec
      = ⟨(c.idx + (SIZE_MOD - 1)) % SIZE_MOD, some ⟨Iterator.prev r.begin_, r.end_⟩⟩ := by
    simp only [enumerating_iterator.preDec, h, Subrange.advance_neg_one]
  have hpost : c.postDec
      = ⟨(c.idx + (SIZE_MOD - 1)) % SIZE_MOD, some ⟨Iterator.prev r.begin_, r.end_⟩⟩ := by
    simp only [enumerating_iterator.postDec, h, Subrange.advance_neg_one]
  refine ⟨?_, ?_, ?_⟩
  · rw [hpre, h0, hidx]
  · rw [hpost, h0, hidx]
  · have hfit : (enumerating_iterator.mk_bound b e : enumerating_iterator I S).idx
        < SIZE_MOD := by
      show 0 < SIZE_MOD
      decide
    have hrun := run_idx ops (enumerating_iterator.mk_bound b e : enumerating_iterator I S)
      (by simp [enumerating_iterator.mk_bound]) hfit
    rw [hrun]
    simp [enumerating_iterator.mk_bound, SIZE_MOD]

/-- C17 at the begin cursor of the sub-range of `values` that skips the
first element: one retreat gives index `2 ^ 64 - 1` on the first element. -/
theorem index_wraps_below_zero_witness :
    (enumerateIS (Iterator.next values.begin) values.end_).begin_.range
      = some ⟨Iterator.next values.begin, values.end_⟩ ∧
    (enumerateIS (Iterator.next values.begin) values.end_).begin_.idx = 0 ∧
    (enumerateIS (Iterator.next values.begin) values.end_).begin_.preDec
      = ⟨18446744073709551615,
          some ⟨Iterator.prev (Iterator.next values.begin), values.end_⟩⟩ :=
  ⟨rfl, rfl,
    (index_wraps_below_zero (enumerateIS (Iterator.next values.begin) values.end_).begin_
      ⟨Iterator.next values.begin, values.end_⟩ rfl rfl values.begin values.end_ overrun).1⟩

end behaviour

/-! ## Index against position -/

section tracking

variable {α : Type}

theorem net_take_succ (s : Step) (rest : List Step) (k : Nat) :
    net ((s :: rest).take (k + 1)) = s.delta + net (rest.take k) := rfl

/-- A cursor over a window of one vector, standing `n` steps after the start
with index `n`, after calls that never take it before the start and never
advance it on the end marker. -/
theorem run_window (v : Vec α) (a e : Int) (hfit : e - a < SIZE_MOD) (ops : List Step) :
    ∀ n : Int, 0 ≤ n → n ≤ e - a →
      (∀ k, k ≤ ops.length → 0 ≤ n + net (ops.take k) ∧ n + net (ops.take k) ≤ e - a) →
      run ops (⟨n.toNat, some ⟨⟨v, a + n⟩, ⟨v, e⟩⟩⟩ :
          enumerating_iterator (VecIter α) (VecIter α))
        = ⟨(n + net ops).toNat, some ⟨⟨v, a + (n + net ops)⟩, ⟨v, e⟩⟩⟩ := by
  induction ops with
  | nil =>
    intro n _ _ _
    simp [run, net]
  | cons s rest ih =>
    intro n hn0 hn1 hin
    have h1 := hin 1 (by simp)
    have hd : net ((s :: rest).take 1) = s.delta := by
      rw [net_take_succ]
      simp [net]
    rw [hd] at h1
    have hstep : s.apply (⟨n.toNat, some ⟨⟨v, a + n⟩, ⟨v, e⟩⟩⟩ :
          enumerating_iterator (VecIter α) (VecIter α))
        = ⟨(n + s.delta).toNat, some ⟨⟨v, a + (n + s.delta)⟩, ⟨v, e⟩⟩⟩ := by
      cases s
      · have hne : a + n ≠ e := by
          simp only [Step.delta] at h1
          omega
        have hidx : (n.toNat + 1) % SIZE_MOD = (n + 1).toNat := by
          simp only [Step.delta, SIZE_MOD] at *
          omega
        simp [Step.apply, enumerating_iterator.preInc, Subrange.advance_one,
          VecIter.reached_def, hne, VecIter.next_def, Step.delta, hidx, add_assoc]
      · have hne : a + n ≠ e := by
          simp only [Step.delta] at h1
          omega
        have hidx : (n.toNat + 1) % SIZE_MOD = (n + 1).toNat := by
          simp only [Step.delta, SIZE_MOD] at *
          omega
        simp [Step.apply, enumerating_iterator.postInc, Subrange.advance_one,
          VecIter.reached_def, hne, VecIter.next_def, Step.delta, hidx, add_assoc]
      · have hidx : (n.toNat + (SIZE_MOD - 1)) % SIZE_MOD = (n + -1).toNat := by
          simp only [Step.delta, SIZE_MOD] at *
          omega
        simp [Step.apply, enumerating_iterator.preDec, Subrange.advance_neg_one,
          VecIter.prev_def, Step.delta, hidx]
        omega
      · have hidx : (n.toNat + (SIZE_MOD - 1)) % SIZE_MOD = (n + -1).toNat := by
          simp only [Step.delta, SIZE_MOD] at *
          omega
        simp [Step.apply, enumerating_iterator.postDec, Subrange.advance_neg_one,
          VecIter.prev_def, Step.delta, hidx]
        omega
    have hrest := ih (n + s.delta) h1.1 h1.2 (by
      intro k hk
      have := hin (k + 1) (by simpa using hk)
      rw [net_take_succ] at this
      constructor <;> omega)
    rw [run, hstep, hrest, add_assoc]
    rfl

/-- C12, as stated, fails: over `temporary` (four elements), five advances
and then one retreat keep the held position inside `[start, end]` (offsets
`0, 1, 2, 3, 4, 4, 3`) and no prefix has more retreats than advances, yet the
cursor ends with index `4 = 5 - 1` on offset `3`, not on `start` moved four
steps forward: it dereferences to `(4, -4)`, the element at offset `3`. -/
theorem index_position_diverge :
    (List.range 7).map (fun k =>
        (run (overrun.take k) (enumerate temporary).begin_).range.map (fun r => r.begin_.off))
      = [some 0, some 1, some 2, some 3, some 4, some 4, some 3] ∧
    temporary.begin.off = 0 ∧ temporary.end_.off = 4 ∧
    (List.range 7).map (fun k => net (overrun.take k)) = [0, 1, 2, 3, 4, 5, 4] ∧
    (run overrun (enumerate temporary).begin_).idx = 4 ∧
    (run overrun (enumerate temporary).begin_).range.map (fun r => r.begin_.off)
      ≠ some (temporary.begin.off + net overrun) ∧
    (run overrun (enumerate temporary).begin_).deref = some (4, -4) ∧
    temporary.elems[3]? = some (-4) :=
  ⟨by decide, by decide, by decide, by decide, by decide, by decide, by decide, by decide⟩

/-- C12 (amended): for a cursor bound to a window `[start, end]` of one
vector and any sequence of advances and retreats in which every prefix has
at least as many advances as retreats and at most `end - start` more (the
cursor is never retreated before `start` and never advanced while it stands
on `end`), the cursor ends with index advances minus retreats and position
`start` moved that many steps forward, so the index it dereferences to is
the offset of its position from `start`. -/
theorem index_tracks_position (v : Vec α) (a e : Int) (ops : List Step)
    (ha : 0 ≤ a) (hae : a ≤ e) (he : e ≤ (v.elems.length : Int))
    (hin : ∀ k, k ≤ ops.length → 0 ≤ net (ops.take k) ∧ net (ops.take k) ≤ e - a) :
    run ops (enumerating_iterator.mk_bound (⟨v, a⟩ : VecIter α) (⟨v, e⟩ : VecIter α))
        = ⟨(net ops).toNat, some ⟨⟨v, a + net ops⟩, ⟨v, e⟩⟩⟩ ∧
      ((run ops (enumerating_iterator.mk_bound (⟨v, a⟩ : VecIter α)
          (⟨v, e⟩ : VecIter α))).idx : Int) = net ops := by
  have hsz := v.size_lt
  have hfit : e - a < (SIZE_MOD : Int) := by omega
  have h := run_window v a e hfit ops 0 (le_refl 0) (by omega) (by
    intro k hk
    have := hin k hk
    constructor <;> omega)
  have hstart : (enumerating_iterator.mk_bound (⟨v, a⟩ : VecIter α) (⟨v, e⟩ : VecIter α))
      = ⟨(0 : Int).toNat, some ⟨⟨v, a + 0⟩, ⟨v, e⟩⟩⟩ := by
    simp [enumerating_iterator.mk_bound]
  have hnet := hin ops.length (le_refl _)
  rw [List.take_length] at hnet
  rw [hstart, h]
  simp only [zero_add]
  exact ⟨trivial, Int.toNat_of_nonneg hnet.1⟩

/-- C12 (amended) on the window of `values` without its first and last
element: two advances and a retreat. -/
theorem index_tracks_position_witness :
    run [Step.preInc, Step.postInc, Step.preDec]
        (enumerating_iterator.mk_bound (⟨values, 1⟩ : VecIter Int) (⟨values, 7⟩ : VecIter Int))
      = ⟨(net [Step.preInc, Step.postInc, Step.preDec]).toNat,
          some ⟨⟨values, 1 + net [Step.preInc, Step.postInc, Step.preDec]⟩, ⟨values, 7⟩⟩⟩ :=
  (index_tracks_position values 1 7 [Step.preInc, Step.postInc, Step.preDec]
    (by decide) (by decide) (by decide) (by decide)).1

/-- C15: a bound cursor that is not exhausted is restored exactly by a
retreat after an advance, and a bound cursor with index at least one,
standing inside its range (the position before it is not the end marker), is
restored exactly by an advance after a retreat; the wrapped iterator's `--`
and `++` undo each other, as `std::bidirectional_iterator` requires, and the
index fits `std::size_t`. -/
theorem advance_retreat_roundtrip {I S : Type} [Iterator I α] [SentinelFor S I]
    (hpn : ∀ x : I, Iterator.prev (Iterator.next x) = x)
    (hnp : ∀ x : I, Iterator.next (Iterator.prev x) = x)
    (c : enumerating_iterator I S) (r : Subrange I S)
    (h : c.range = some r) (hfit : c.idx < SIZE_MOD) :
    (SentinelFor.reached r.begin_ r.end_ = false → c.preInc.preDec = c) ∧
    (1 ≤ c.idx → SentinelFor.reached (Iterator.prev r.begin_) r.end_ = false →
      c.preDec.preInc = c) := by
  cases c with
  | mk i rg =>
    simp only at h hfit
    subst h
    cases r with
    | mk b e =>
      constructor
      · intro hne
        have hidx : ((i + 1) % SIZE_MOD + (SIZE_MOD - 1)) % SIZE_MOD = i := by
          simp only [SIZE_MOD] at *
          omega
        simp only at hne
        simp [enumerating_iterator.preInc, enumerating_iterator.preDec,
          Subrange.advance_one, Subrange.advance_neg_one, hne, hpn, hidx]
      · intro hpos hne
        have hidx : ((i + (SIZE_MOD - 1)) % SIZE_MOD + 1) % SIZE_MOD = i := by
          simp only [SIZE_MOD] at *
          omega
        simp only at hne
        simp [enumerating_iterator.preInc, enumerating_iterator.preDec,
          Subrange.advance_one, Subrange.advance_neg_one, hne, hnp, hidx]

/-- C15 at the begin cursor of `enumerate(values)` advanced once. -/
theorem advance_retreat_roundtrip_witness :
    (enumerate values).begin_.preInc.preInc.preDec = (enumerate values).begin_.preInc ∧
    (enumerate values).begin_.preInc.preDec.preInc = (enumerate values).begin_.preInc :=
  have h := advance_retreat_roundtrip
    (fun x : VecIter Int => by
      cases x
      simp [VecIter.next_def, VecIter.prev_def])
    (fun x : VecIter Int => by
      cases x
      simp [VecIter.next_def, VecIter.prev_def])
    (enumerate values).begin_.preInc ⟨Iterator.next values.begin, values.end_⟩ rfl (by decide)
  ⟨h.1 (by decide), h.2 (by decide) (by decide)⟩

end tracking


/-- The fourth scenario of `main`: the temporary vector. -/
theorem scenario_temporary :
    rangeForAll 5 (enumerate temporary) = some [(0, -1), (1, -2), (2, -3), (3, -4)] := by
  decide

end mine
